import Mathlib

/-!
# Verification of `gedcom-2-json` (robin-pham/gedcom-2-json)

Shallow embedding of `src/lib.rs` and `src/main.rs`: a GEDCOM-to-JSON
converter.  The pipeline is

  * tokenization: the regex
    `\s*(0|[1-9]+[0-9]*) (@[^@]+@ |\b)([A-Za-z0-9_]+)( [^\n\r]*|\b)`
    is run with `captures_iter` over the whole input text;
  * record conversion: group 1 is parsed as an `i32` (a parse failure is
    propagated with `?`), group 2 is the pointer (kept verbatim), group 3
    the tag, group 4 the data (trimmed);
  * tree building: `build_tree` threads a stack of node references,
    attaching each record to the unwound candidate when the level gap is
    exactly one;
  * serialization: `serde_json::to_string_pretty(&dummy_root.children)`
    is written to the file `"test.txt"`.

The embedding models strings as `List Char` / `String`, machine integers
as `Int`/`Nat` with explicit bounds where overflow matters (`i32` level
parsing), the borrowed-reference tree as an arena: records are identified
by their position in the tokenized sequence, and `children` lists hold
positions.  Character classes (`\s`, word characters for `\b`) are the
ASCII parts of the classes used by the `regex` crate; the inputs exercised
by the specification are ASCII.
-/

namespace Gedcom

/-- `\s` of the pattern: ASCII whitespace characters (space, tab, LF, VT, FF,
CR), the fragment of the regex crate's class relevant to ASCII input.  This
same class models Rust's `str::trim`. -/
def isWs (c : Char) : Bool :=
  c = ' ' ∨ c = '\t' ∨ c = '\n' ∨ c = '\x0b' ∨ c = '\x0c' ∨ c = '\r'

/-- ASCII decimal digit, the class `[0-9]` of the pattern. -/
def isDig (c : Char) : Bool :=
  '0' ≤ c ∧ c ≤ '9'

/-- Nonzero ASCII digit, the class `[1-9]` of the pattern. -/
def isDig1 (c : Char) : Bool :=
  '1' ≤ c ∧ c ≤ '9'

/-- Word character: the class `[A-Za-z0-9_]` of group 3, which is also the
ASCII part of the word class used by `\b`. -/
def isWord (c : Char) : Bool :=
  ('A' ≤ c ∧ c ≤ 'Z') ∨ ('a' ≤ c ∧ c ≤ 'z') ∨ ('0' ≤ c ∧ c ≤ '9') ∨ c = '_'

/-- The four capture groups of one match, as raw character lists:
level digits, pointer (with its delimiters and trailing space, exactly as
group 2 captures it), tag, and raw data (group 4: either empty or a space
followed by the rest of the line). -/
structure RawCap where
  levelStr : List Char
  pointer : List Char
  tag : List Char
  dataRaw : List Char
  deriving Repr, DecidableEq

/-- Match the pattern at one starting position.  This is a deterministic
compilation of the leftmost-first backtracking semantics of
`\s*(0|[1-9]+[0-9]*) (@[^@]+@ |\b)([A-Za-z0-9_]+)( [^\n\r]*|\b)`:

* `\s*` is greedy and never needs to backtrack (the level must start with a
  digit, and no digit is whitespace), so it consumes the maximal whitespace
  run;
* `0|[1-9]+[0-9]*` followed by a literal space consumes the maximal digit
  run (a shorter split would put a digit where the space must match); the
  run matches iff it does not start with `0` or is exactly `0`;
* group 2 tries `@[^\@]+@ ` first; if the current character is `@` the
  `\b` alternative can never succeed (`@` is not a word character, and the
  preceding character is the literal space), so a failed pointer
  alternative fails the whole position; if the current character is not `@`
  the pointer alternative fails immediately, and `\b` holds iff the current
  character is a word character;
* group 3 consumes the maximal word run, which must be nonempty;
* group 4 tries a literal space followed by the maximal `[^\n\r]*` run; if
  the character after the tag is not a space, `\b` holds (the tag run is
  maximal, so the next character is not a word character).

Returns the captures and the rest of the input after the match. -/
def matchAt (s : List Char) : Option (RawCap × List Char) :=
  let s1 := s.dropWhile isWs
  let digits := s1.takeWhile isDig
  let s2 := s1.dropWhile isDig
  if digits.isEmpty then none
  else if digits.head? = some '0' ∧ digits.length ≠ 1 then none
  else
    match s2 with
    | ' ' :: s3 =>
      match s3 with
      | '@' :: t =>
        let mid := t.takeWhile (fun c => c ≠ '@')
        let t2 := t.dropWhile (fun c => c ≠ '@')
        if mid.isEmpty then none
        else
          match t2 with
          | '@' :: ' ' :: s4 =>
            let tag := s4.takeWhile isWord
            let s5 := s4.dropWhile isWord
            if tag.isEmpty then none
            else
              match s5 with
              | ' ' :: u =>
                some (⟨digits, '@' :: mid ++ ['@', ' '], tag,
                       ' ' :: u.takeWhile (fun c => c ≠ '\n' ∧ c ≠ '\r')⟩,
                      u.dropWhile (fun c => c ≠ '\n' ∧ c ≠ '\r'))
              | _ => some (⟨digits, '@' :: mid ++ ['@', ' '], tag, []⟩, s5)
          | _ => none
      | _ =>
        let tag := s3.takeWhile isWord
        let s5 := s3.dropWhile isWord
        if tag.isEmpty then none
        else
          match s5 with
          | ' ' :: u =>
            some (⟨digits, [], tag,
                   ' ' :: u.takeWhile (fun c => c ≠ '\n' ∧ c ≠ '\r')⟩,
                  u.dropWhile (fun c => c ≠ '\n' ∧ c ≠ '\r'))
          | _ => some (⟨digits, [], tag, []⟩, s5)
    | _ => none

/-- `captures_iter`: scan left to right; at each position try a match, on
failure advance one character, on success continue after the match.  Fuel
bounds the recursion; every step consumes at least one character, so
`s.length` fuel is enough (see `scanCaps_fuel`). -/
def scanCapsF : Nat → List Char → List RawCap
  | 0, _ => []
  | _ + 1, [] => []
  | fuel + 1, c :: rest =>
    match matchAt (c :: rest) with
    | some (cap, r) => cap :: scanCapsF fuel r
    | none => scanCapsF fuel rest

/-- All captures of the input text, in order. -/
def scanCaps (s : List Char) : List RawCap :=
  scanCapsF s.length s

/-! ## Record conversion (the loop body of `parse`) -/

/-- Numeric value of a digit string. -/
def digitsVal (ds : List Char) : Nat :=
  ds.foldl (fun acc c => 10 * acc + (c.toNat - 48)) 0

/-- `str::parse::<i32>` on a string of decimal digits (which is all the
level group can capture): the value, or `none` when it overflows `i32`. -/
def parseI32 (ds : List Char) : Option Int :=
  if digitsVal ds ≤ 2147483647 then some (digitsVal ds) else none

/-- `str::trim`: drop whitespace from both ends. -/
def rustTrim (l : List Char) : List Char :=
  ((l.dropWhile isWs).reverse.dropWhile isWs).reverse

/-- One tokenized record, the `Node` fields of `lib.rs` except `children`
(children live in the build state, see `BState`). -/
structure Rec where
  data : String
  tag : String
  pointer : String
  level : Int
  deriving Repr, DecidableEq

/-- The loop of `parse` over the captures: parse the level (propagating a
failure with `?`, which aborts the whole run), keep the pointer verbatim,
trim the data. -/
def capsToRecs : List RawCap → Except String (List Rec)
  | [] => .ok []
  | cap :: rest =>
    match parseI32 cap.levelStr with
    | none => .error "invalid level integer"
    | some lv =>
      match capsToRecs rest with
      | .error e => .error e
      | .ok rs =>
        .ok (⟨⟨rustTrim cap.dataRaw⟩, ⟨cap.tag⟩, ⟨cap.pointer⟩, lv⟩ :: rs)

/-- Tokenization of the whole input: captures, then record conversion. -/
def tokenize (contents : String) : Except String (List Rec) :=
  capsToRecs (scanCaps contents.data)

/-! ## Tree building (`build_tree`)

Records are identified by their position in the tokenized list; the
synthetic root is the extra entry `none`.  `children` vectors are lists of
positions, kept in a map `kids` (plus `rootKids` for the root's own
vector), mirroring the `RefCell<Vec<&Node>>` graph of the source. -/

/-- `Node::new(-1, "dummy", "", "")` of `parse`: the synthetic root. -/
def dummyRoot : Rec :=
  ⟨"", "dummy", "", -1⟩

/-- Level of record `i` of the sequence (total function; the builder only
ever consults positions that exist). -/
def lvlOf (recs : List Rec) (i : Nat) : Int :=
  (recs.getD i dummyRoot).level

/-- Level of a stack entry: the synthetic root (`none`) has the level of
`dummy_root`, that is `-1`. -/
def entryLevel (recs : List Rec) : Option Nat → Int
  | none => dummyRoot.level
  | some i => lvlOf recs i

/-- The mutable state of `build_tree`: the stack of node references (top
first) and every node's `children` vector. -/
structure BState where
  stack : List (Option Nat)
  rootKids : List Nat
  kids : Nat → List Nat

/-- The `while popped.level >= node.level { popped = stack.pop().unwrap() }`
loop: starting from the already-popped `p`, keep popping until an entry
with level below `l` appears.  `none` is the `unwrap` panic on an empty
stack. -/
def unwind (recs : List Rec) (l : Int) :
    Option Nat → List (Option Nat) → Option (Option Nat × List (Option Nat))
  | p, rest =>
    if entryLevel recs p ≥ l then
      match rest with
      | [] => none
      | q :: rest' => unwind recs l q rest'
    else
      some (p, rest)

/-- One iteration of the `while let Some(node) = iter.next()` loop for the
record at position `j`: pop (if the stack is empty the body is skipped),
unwind, attach when the candidate sits exactly one level up, push the
candidate back, push the record.  `none` is a propagated `unwrap` panic. -/
def step (recs : List Rec) (st : BState) (j : Nat) : Option BState :=
  match st.stack with
  | [] => some st
  | p :: prest =>
    match unwind recs (lvlOf recs j) p prest with
    | none => none
    | some (c, rest) =>
      if entryLevel recs c = lvlOf recs j - 1 then
        match c with
        | none =>
          some ⟨some j :: c :: rest, st.rootKids ++ [j], st.kids⟩
        | some i =>
          some ⟨some j :: c :: rest, st.rootKids,
                Function.update st.kids i (st.kids i ++ [j])⟩
      else
        some ⟨some j :: c :: rest, st.rootKids, st.kids⟩

/-- Run the loop over a list of record positions. -/
def buildSteps (recs : List Rec) : List Nat → BState → Option BState
  | [], st => some st
  | j :: js, st =>
    match step recs st j with
    | none => none
    | some st' => buildSteps recs js st'

/-- Initial state: the stack holds only the synthetic root, all `children`
vectors are empty. -/
def initState : BState :=
  ⟨[none], [], fun _ => []⟩

/-- `build_tree` on the whole record sequence. -/
def build (recs : List Rec) : Option BState :=
  buildSteps recs (List.range recs.length) initState

/-! ## Serialization (`serde_json::to_string_pretty(&dummy_root.children)`) -/

/-- JSON values.  The output text is modelled up to its JSON value; field
order follows the `Serialize` derive on `Node` (declaration order:
`data`, `tag`, `pointer`, `level`, `children`). -/
inductive Json where
  | str : String → Json
  | num : Int → Json
  | arr : List Json → Json
  | obj : List (String × Json) → Json

/-- Serialize the forest hanging below the positions `is`: each node is an
object with its four fields and its serialized children.  Fuel bounds the
depth; every child position strictly exceeds its parent's, so
`recs.length` fuel reaches everything (see the preorder development). -/
def forestJson (recs : List Rec) (kids : Nat → List Nat) :
    Nat → List Nat → List Json
  | 0, _ => []
  | fuel + 1, is =>
    is.map fun i =>
      let r := recs.getD i dummyRoot
      Json.obj [("data", .str r.data), ("tag", .str r.tag),
                ("pointer", .str r.pointer), ("level", .num r.level),
                ("children", .arr (forestJson recs kids fuel (kids i)))]

/-- `parse` of `lib.rs`: tokenize, build the tree, serialize the root's
`children`, and write the result — to the hard-coded path `"test.txt"`.
The returned pair is (path written, serialized JSON value); an `unwrap`
panic inside `build_tree` is surfaced as an error (it is proved
unreachable for tokenizer output). -/
def parse (contents : String) : Except String (String × Json) :=
  match tokenize contents with
  | .error e => .error e
  | .ok recs =>
    match build recs with
    | none => .error "panic: pop on empty stack"
    | some st =>
      .ok ("test.txt", .arr (forestJson recs st.kids recs.length st.rootKids))

/-- `Config` of `lib.rs`. -/
structure Config where
  input_filename : String
  output_filename : String

/-- `Config::new`: requires at least three arguments, clones the first two
after the program name. -/
def Config.new (args : List String) : Except String Config :=
  if args.length < 3 then .error "not enough arguments"
  else .ok ⟨args.getD 1 "", args.getD 2 ""⟩

/-- `run`: read the input file (its contents are passed as `contents`;
an unreadable file is outside the model) and `parse` it. -/
def run (_config : Config) (contents : String) : Except String (String × Json) :=
  parse contents

/-! ## Observations on the built forest -/

/-- Pre-order, left-to-right traversal of the forest hanging below the
positions `is`: each position followed by its subtree.  Fuel bounds the
depth exactly as in `forestJson`. -/
def preOrd (kids : Nat → List Nat) : Nat → List Nat → List Nat
  | 0, _ => []
  | fuel + 1, is => is.flatMap fun i => i :: preOrd kids fuel (kids i)

/-- Tag of the record at position `j`. -/
def tagOf (recs : List Rec) (j : Nat) : String :=
  (recs.getD j dummyRoot).tag

/-- Position `j` was attached to some parent (the synthetic root included):
it appears in some `children` vector. -/
def attachedB (st : BState) (n : Nat) (j : Nat) : Bool :=
  j ∈ st.rootKids ∨ (List.range n).any fun i => j ∈ st.kids i

/-- Position `j` is transitively attached to the synthetic root. -/
inductive Reach (st : BState) : Nat → Prop
  | root {j} : j ∈ st.rootKids → Reach st j
  | child {i j} : Reach st i → j ∈ st.kids i → Reach st j

/-! ## C1: where does a successful run write its output? -/

/-- C1: the specification says a successful run writes the pretty-printed
JSON to the output path named by the second argument of the configuration.
The code instead ignores `config.output_filename` entirely and writes to
the hard-coded path `"test.txt"` (`fs::write("test.txt", serialized)` in
`parse`): every successful run writes to `"test.txt"`, whatever the
configuration says. -/
theorem run_writes_hardcoded_path (cfg : Config) (contents : String)
    (p : String) (out : Json) (h : run cfg contents = .ok (p, out)) :
    p = "test.txt" := by
  unfold run parse at h
  split at h
  · exact absurd h (by simp)
  · split at h
    · exact absurd h (by simp)
    · rw [Except.ok.injEq, Prod.mk.injEq] at h
      exact h.1.symm

/-- Witness: the configuration `("in.ged", "out.json")` with input
`0 HEAD` succeeds, and the path written is `"test.txt"`, not the
configured output path. -/
theorem run_writes_hardcoded_path_witness :
    ∃ p out, run ⟨"in.ged", "out.json"⟩ "0 HEAD" = .ok (p, out) ∧
      p = "test.txt" ∧ p ≠ "out.json" := by
  refine ⟨_, _, rfl, ?_, by decide⟩
  exact run_writes_hardcoded_path ⟨"in.ged", "out.json"⟩ "0 HEAD" _ _ rfl

/-! ## C3: the synthetic root -/

/-- C3 counterexample: the claim says the synthetic root has an empty tag;
`parse` builds it as `Node::new(-1, "dummy", "", "")`, whose tag is
`"dummy"`. -/
theorem dummyRoot_tag_not_empty : dummyRoot.level = -1 ∧ ¬ dummyRoot.tag = "" := by
  constructor
  · rfl
  · intro h
    exact absurd h (by decide)

/-- C3 (amended): the synthetic root has level `-1`, tag `"dummy"`, and
empty data and pointer fields; it is never part of the serialized output:
whenever `parse` succeeds the emitted JSON is exactly the array of the
serialized children of the root (and their descendants). -/
theorem dummyRoot_shape_and_invisible :
    dummyRoot.level = -1 ∧ dummyRoot.tag = "dummy" ∧
    dummyRoot.data = "" ∧ dummyRoot.pointer = "" ∧
    ∀ contents p j, parse contents = .ok (p, j) →
      ∃ recs st, tokenize contents = .ok recs ∧ build recs = some st ∧
        j = .arr (forestJson recs st.kids recs.length st.rootKids) := by
  refine ⟨rfl, rfl, rfl, rfl, fun contents p j h => ?_⟩
  unfold parse at h
  split at h
  · exact absurd h (by simp)
  · rename_i recs htok
    split at h
    · exact absurd h (by simp)
    · rename_i st hb
      rw [Except.ok.injEq, Prod.mk.injEq] at h
      exact ⟨recs, st, htok, hb, h.2.symm⟩

/-- Witness for the amended C3: on the input `0 HEAD` the emitted JSON is
the serialization of the root's children. -/
theorem dummyRoot_shape_and_invisible_witness :
    ∃ recs st, tokenize "0 HEAD" = .ok recs ∧ build recs = some st ∧
      Json.arr (forestJson recs st.kids recs.length st.rootKids)
        = .arr (forestJson recs st.kids recs.length st.rootKids) := by
  obtain ⟨recs, st, h1, h2, -⟩ :=
    dummyRoot_shape_and_invisible.2.2.2.2 "0 HEAD" _ _ rfl
  exact ⟨recs, st, h1, h2, rfl⟩

/-! ## C8: inputs with no matching line -/

/-- C8: when no part of the input matches the record grammar (the scan
produces no captures — in particular on the empty input), the pipeline
succeeds, the built forest is empty, and the serialized output is the
JSON array `[]`. -/
theorem no_match_empty_output (contents : String)
    (h : scanCaps contents.data = []) :
    tokenize contents = .ok [] ∧
    build [] = some initState ∧ initState.rootKids = [] ∧
    parse contents = .ok ("test.txt", .arr []) := by
  have ht : tokenize contents = .ok [] := by
    unfold tokenize
    rw [h]
    rfl
  refine ⟨ht, rfl, rfl, ?_⟩
  unfold parse
  rw [ht]
  rfl

/-- Witness: the empty input has no captures, succeeds, and serializes to
the JSON array `[]`. -/
theorem no_match_empty_output_witness :
    tokenize "" = .ok [] ∧
    build [] = some initState ∧ initState.rootKids = [] ∧
    parse "" = .ok ("test.txt", .arr []) :=
  no_match_empty_output "" rfl

/-! ## C4: the level invariant of the built forest -/

/-- Every attachment made so far respects the level rule: children of the
synthetic root are at level `0 = -1 + 1`, all other children exactly one
level below their parent. -/
def LevelInv (recs : List Rec) (st : BState) : Prop :=
  (∀ j ∈ st.rootKids, lvlOf recs j = 0) ∧
  ∀ i j, j ∈ st.kids i → lvlOf recs j = lvlOf recs i + 1

theorem step_levelInv {recs : List Rec} {st st' : BState} {j : Nat}
    (hInv : LevelInv recs st) (h : step recs st j = some st') :
    LevelInv recs st' := by
  unfold step at h
  split at h
  · cases h
    exact hInv
  · split at h
    · exact absurd h (by simp)
    · rename_i c rest hunw
      split at h
      · rename_i hguard
        split at h
        · cases h
          refine ⟨?_, hInv.2⟩
          intro k hk
          rcases List.mem_append.mp hk with hk | hk
          · exact hInv.1 k hk
          · rw [List.mem_singleton.mp hk]
            have hg : (-1 : Int) = lvlOf recs j - 1 := hguard
            omega
        · rename_i i
          cases h
          refine ⟨hInv.1, ?_⟩
          intro i' j' hj'
          replace hj' : j' ∈ Function.update st.kids i (st.kids i ++ [j]) i' := hj'
          by_cases hii : i' = i
          · subst hii
            rw [Function.update_same] at hj'
            rcases List.mem_append.mp hj' with hj' | hj'
            · exact hInv.2 i' j' hj'
            · rw [List.mem_singleton.mp hj']
              have hg : lvlOf recs i' = lvlOf recs j - 1 := hguard
              omega
          · rw [Function.update_noteq hii] at hj'
            exact hInv.2 i' j' hj'
      · cases h
        exact hInv

theorem buildSteps_levelInv {recs : List Rec} :
    ∀ (js : List Nat) (st st' : BState),
      buildSteps recs js st = some st' → LevelInv recs st → LevelInv recs st'
  | [], st, st', h, hInv => by
    cases h
    exact hInv
  | j :: js, st, st', h, hInv => by
    unfold buildSteps at h
    split at h
    · exact absurd h (by simp)
    · rename_i st₁ hstep
      exact buildSteps_levelInv js st₁ st' h (step_levelInv hInv hstep)

/-- C4: in the built forest, every child (children of the synthetic root
included) sits exactly one level below its parent: children of the root
(level `-1`) have level `0`, and a record in the `children` vector of
record `i` has level `lvlOf i + 1`. -/
theorem build_level_invariant (recs : List Rec) (st : BState)
    (h : build recs = some st) :
    (∀ j ∈ st.rootKids, lvlOf recs j = 0) ∧
    (∀ i j, j ∈ st.kids i → lvlOf recs j = lvlOf recs i + 1) :=
  buildSteps_levelInv (List.range recs.length) initState st h
    ⟨fun _ h => absurd h (List.not_mem_nil _), fun _ _ h => absurd h (List.not_mem_nil _)⟩

/-- Witness: the scenario-1 record sequence (`0 HEAD`, four level-1
children) satisfies the level invariant. -/
theorem build_level_invariant_witness :
    ∃ st, build [⟨"", "HEAD", "", 0⟩, ⟨"M", "SEX", "", 1⟩] = some st ∧
      (∀ j ∈ st.rootKids, lvlOf [⟨"", "HEAD", "", 0⟩, ⟨"M", "SEX", "", 1⟩] j = 0) ∧
      (∀ i j, j ∈ st.kids i →
        lvlOf [⟨"", "HEAD", "", 0⟩, ⟨"M", "SEX", "", 1⟩] j
          = lvlOf [⟨"", "HEAD", "", 0⟩, ⟨"M", "SEX", "", 1⟩] i + 1) :=
  ⟨_, rfl, build_level_invariant _ _ rfl⟩

/-! ## C9 / C10: the builder never fails

The stack always consists of record positions on top of the synthetic
root: `us.map some ++ [none]`.  Since every record level is `≥ 0` and the
root's level is `-1`, the unwinding loop always finds a candidate before
exhausting the stack, so `stack.pop().unwrap()` never panics. -/

/-- The unwinding call as it occurs on a stack of shape
`us.map some ++ [none]` (proof helper). -/
def unwindCall (recs : List Rec) (l : Int) : List Nat →
    Option (Option Nat × List (Option Nat))
  | [] => unwind recs l none []
  | v :: vs => unwind recs l (some v) (vs.map some ++ [none])

theorem unwindCall_ok (recs : List Rec) (l : Int) (hl : 0 ≤ l) :
    ∀ vs : List Nat, ∃ (c : Option Nat) (rest : List (Option Nat)) (us : List Nat),
      unwindCall recs l vs = some (c, rest) ∧ c :: rest = us.map some ++ [none]
  | [] => by
    refine ⟨none, [], [], ?_, rfl⟩
    unfold unwindCall unwind
    rw [if_neg]
    intro hcon
    have : (-1 : Int) ≥ l := hcon
    omega
  | v :: vs => by
    obtain ⟨c, rest, us, hc, hshape⟩ := unwindCall_ok recs l hl vs
    by_cases hv : entryLevel recs (some v) ≥ l
    · refine ⟨c, rest, us, ?_, hshape⟩
      unfold unwindCall unwind
      rw [if_pos hv]
      cases vs with
      | nil => exact hc
      | cons v' vs' => exact hc
    · refine ⟨some v, vs.map some ++ [none], v :: vs, ?_, by simp⟩
      unfold unwindCall unwind
      rw [if_neg hv]

/-- `step` on a non-empty stack, unfolded past the pop. -/
theorem step_cons (recs : List Rec) (st : BState) (j : Nat)
    (p : Option Nat) (prest : List (Option Nat)) (hs : st.stack = p :: prest) :
    step recs st j =
      match unwind recs (lvlOf recs j) p prest with
      | none => none
      | some (c, rest) =>
        if entryLevel recs c = lvlOf recs j - 1 then
          match c with
          | none => some ⟨some j :: c :: rest, st.rootKids ++ [j], st.kids⟩
          | some i => some ⟨some j :: c :: rest, st.rootKids,
              Function.update st.kids i (st.kids i ++ [j])⟩
        else some ⟨some j :: c :: rest, st.rootKids, st.kids⟩ := by
  unfold step
  rw [hs]

/-- When unwinding succeeds, the step succeeds and pushes the candidate
back followed by the incoming record. -/
theorem step_stack (recs : List Rec) (st : BState) (j : Nat)
    (p : Option Nat) (prest : List (Option Nat)) (c : Option Nat)
    (rest : List (Option Nat)) (hs : st.stack = p :: prest)
    (hu : unwind recs (lvlOf recs j) p prest = some (c, rest)) :
    ∃ st', step recs st j = some st' ∧ st'.stack = some j :: c :: rest := by
  rw [step_cons recs st j p prest hs, hu]
  dsimp only
  by_cases hg : entryLevel recs c = lvlOf recs j - 1
  · rw [if_pos hg]
    cases c with
    | none => exact ⟨_, rfl, rfl⟩
    | some i => exact ⟨_, rfl, rfl⟩
  · rw [if_neg hg]
    exact ⟨_, rfl, rfl⟩

/-- One step keeps the stack shape and never panics, as long as the
incoming record's level is non-negative. -/
theorem step_ok (recs : List Rec) (st : BState) (j : Nat)
    (hj : 0 ≤ lvlOf recs j) (us : List Nat)
    (hs : st.stack = us.map some ++ [none]) :
    ∃ st', step recs st j = some st' ∧
      ∃ us' : List Nat, st'.stack = us'.map some ++ [none] := by
  obtain ⟨c, rest, us₂, hc, hshape⟩ := unwindCall_ok recs (lvlOf recs j) hj us
  cases us with
  | nil =>
    obtain ⟨st', h1, h2⟩ := step_stack recs st j none [] c rest (by simpa using hs) hc
    refine ⟨st', h1, j :: us₂, ?_⟩
    rw [h2, List.map_cons, List.cons_append, ← hshape]
  | cons v vs =>
    obtain ⟨st', h1, h2⟩ :=
      step_stack recs st j (some v) (vs.map some ++ [none]) c rest (by simpa using hs) hc
    refine ⟨st', h1, j :: us₂, ?_⟩
    rw [h2, List.map_cons, List.cons_append, ← hshape]

/-- Iterating `step` from a well-shaped stack succeeds and keeps the
shape. -/
theorem buildSteps_ok (recs : List Rec) :
    ∀ (js : List Nat) (st : BState), (∀ j ∈ js, 0 ≤ lvlOf recs j) →
      (∃ us : List Nat, st.stack = us.map some ++ [none]) →
      ∃ st', buildSteps recs js st = some st' ∧
        ∃ us' : List Nat, st'.stack = us'.map some ++ [none]
  | [], st, _, hsh => ⟨st, rfl, hsh⟩
  | j :: js, st, hj, hsh => by
    obtain ⟨us, hs⟩ := hsh
    obtain ⟨st₁, h1, hsh₁⟩ := step_ok recs st j (hj j (List.mem_cons_self j js)) us hs
    obtain ⟨st', h2, hsh'⟩ :=
      buildSteps_ok recs js st₁ (fun k hk => hj k (List.mem_cons_of_mem j hk)) hsh₁
    refine ⟨st', ?_, hsh'⟩
    unfold buildSteps
    rw [h1]
    exact h2

theorem lvlOf_nonneg {recs : List Rec} (hlv : ∀ r ∈ recs, 0 ≤ r.level)
    {j : Nat} (hj : j < recs.length) : 0 ≤ lvlOf recs j := by
  unfold lvlOf
  rw [List.getD_eq_getElem?_getD, List.getElem?_eq_getElem hj]
  exact hlv _ (List.getElem_mem hj)

/-- C9: on every tokenizer-style record sequence (all levels
non-negative) the builder terminates successfully: it returns some final
state, with no failure path. -/
theorem build_total (recs : List Rec) (hlv : ∀ r ∈ recs, 0 ≤ r.level) :
    ∃ st, build recs = some st := by
  obtain ⟨st, h, -⟩ := buildSteps_ok recs (List.range recs.length) initState
    (fun j hj => lvlOf_nonneg hlv (List.mem_range.mp hj)) ⟨[], rfl⟩
  exact ⟨st, h⟩

/-- Witness for C9: the single-record input `0 HEAD` builds. -/
theorem build_total_witness :
    ∃ st, build [⟨"", "HEAD", "", 0⟩] = some st :=
  build_total [⟨"", "HEAD", "", 0⟩] (by decide)

/-- C10: at every point of the run over a tokenizer-produced sequence
(all levels non-negative), the loop body completes without the unchecked
pop failing — every prefix of the iteration returns some state — and the
synthetic root (level `-1`) is still at the bottom of the stack. -/
theorem build_never_panics (recs : List Rec) (hlv : ∀ r ∈ recs, 0 ≤ r.level)
    (m : Nat) (hm : m ≤ recs.length) :
    ∃ st, buildSteps recs (List.range m) initState = some st ∧
      st.stack ≠ [] ∧ st.stack.getLast? = some none := by
  obtain ⟨st, h, us, hsh⟩ := buildSteps_ok recs (List.range m) initState
    (fun j hj => lvlOf_nonneg hlv (lt_of_lt_of_le (List.mem_range.mp hj) hm)) ⟨[], rfl⟩
  refine ⟨st, h, ?_, ?_⟩
  · rw [hsh]
    simp
  · rw [hsh]
    exact List.getLast?_concat _

/-- Witness for C10: after the single record of `0 HEAD`, the stack still
has the synthetic root at its bottom. -/
theorem build_never_panics_witness :
    ∃ st, buildSteps [⟨"", "HEAD", "", 0⟩] (List.range 1) initState = some st ∧
      st.stack ≠ [] ∧ st.stack.getLast? = some none :=
  build_never_panics [⟨"", "HEAD", "", 0⟩] (by decide) 1 (by decide)

/-! ## C5: level gaps greater than one orphan the record, which still
accepts children -/

/-- C5: when the candidate that remains after unwinding is more than one
level shallower than the incoming record, the record is attached to
nothing — every `children` vector, the root's included, is left unchanged —
but it is still pushed onto the stack; a subsequent record exactly one
level deeper then attaches to it.  In particular, the single input
`2 FOO bar` tokenizes to one level-2 record and yields a root whose
`children` collection is empty (serialized output `[]`). -/
theorem level_gap_orphans_but_parents :
    (∀ (recs : List Rec) (st : BState) (j : Nat) (p : Option Nat)
        (prest : List (Option Nat)) (c : Option Nat) (rest : List (Option Nat)),
      st.stack = p :: prest →
      unwind recs (lvlOf recs j) p prest = some (c, rest) →
      entryLevel recs c < lvlOf recs j - 1 →
      step recs st j = some ⟨some j :: c :: rest, st.rootKids, st.kids⟩)
    ∧ (∀ (recs : List Rec) (st : BState) (j j' : Nat) (tail : List (Option Nat)),
      st.stack = some j :: tail →
      lvlOf recs j' = lvlOf recs j + 1 →
      step recs st j' = some ⟨some j' :: some j :: tail, st.rootKids,
        Function.update st.kids j (st.kids j ++ [j'])⟩)
    ∧ tokenize "2 FOO bar" = .ok [⟨"bar", "FOO", "", 2⟩]
    ∧ (build [⟨"bar", "FOO", "", 2⟩]).map BState.rootKids = some []
    ∧ parse "2 FOO bar" = .ok ("test.txt", .arr []) := by
  refine ⟨?_, ?_, by rfl, by rfl, by rfl⟩
  · intro recs st j p prest c rest h1 h2 h3
    rw [step_cons recs st j p prest h1, h2]
    dsimp only
    rw [if_neg (by omega)]
  · intro recs st j j' tail h1 h2
    have hu : unwind recs (lvlOf recs j') (some j) tail = some (some j, tail) := by
      unfold unwind
      rw [if_neg]
      have : entryLevel recs (some j) = lvlOf recs j := rfl
      omega
    rw [step_cons recs st j' (some j) tail h1, hu]
    dsimp only
    rw [if_pos (by have : entryLevel recs (some j) = lvlOf recs j := rfl; omega)]

/-- Witness for C5: the record sequence of `2 FOO x` / `3 BAR y`: the
level-2 record is orphaned by the first step (no children vector touched),
and the level-3 record then attaches to it. -/
theorem level_gap_orphans_but_parents_witness :
    step [⟨"x", "FOO", "", 2⟩, ⟨"y", "BAR", "", 3⟩] initState 0
        = some ⟨[some 0, none], initState.rootKids, initState.kids⟩
    ∧ step [⟨"x", "FOO", "", 2⟩, ⟨"y", "BAR", "", 3⟩]
          ⟨[some 0, none], [], fun _ => []⟩ 1
        = some ⟨[some 1, some 0, none], (⟨[some 0, none], [], fun _ => []⟩ : BState).rootKids,
            Function.update (⟨[some 0, none], [], fun _ => []⟩ : BState).kids 0
              ((⟨[some 0, none], [], fun _ => []⟩ : BState).kids 0 ++ [1])⟩ :=
  ⟨level_gap_orphans_but_parents.1 [⟨"x", "FOO", "", 2⟩, ⟨"y", "BAR", "", 3⟩]
      initState 0 none [] none [] rfl (by decide) (by decide),
   level_gap_orphans_but_parents.2.1 [⟨"x", "FOO", "", 2⟩, ⟨"y", "BAR", "", 3⟩]
      ⟨[some 0, none], [], fun _ => []⟩ 0 1 [none] rfl (by decide)⟩

/-! ## C7: a level-parse failure aborts the whole tokenization -/

/-- C7: if the level token of some matched line fails `i32` parsing, the
whole tokenization fails at once with the propagated error: the captures
after the offending one are never converted (the result is the same error
for every continuation `rest`), and `parse` produces no output. -/
theorem level_parse_failure_aborts :
    ∀ (pre : List RawCap) (bad : RawCap) (rest : List RawCap) (rs : List Rec),
      capsToRecs pre = .ok rs →
      parseI32 bad.levelStr = none →
      capsToRecs (pre ++ bad :: rest) = .error "invalid level integer"
      ∧ ∀ contents : String, scanCaps contents.data = pre ++ bad :: rest →
          parse contents = .error "invalid level integer" := by
  intro pre
  induction pre with
  | nil =>
    intro bad rest rs _ hbad
    have hmain : capsToRecs ([] ++ bad :: rest) = .error "invalid level integer" := by
      show capsToRecs (bad :: rest) = _
      unfold capsToRecs
      rw [hbad]
    refine ⟨hmain, fun contents hscan => ?_⟩
    unfold parse tokenize
    rw [hscan, hmain]
  | cons cap pre ih =>
    intro bad rest rs hok hbad
    unfold capsToRecs at hok
    rcases hlv : parseI32 cap.levelStr with _ | lv <;> rw [hlv] at hok
    · exact absurd hok (by simp)
    · rcases hpre : capsToRecs pre with e | rs' <;> rw [hpre] at hok
      · exact absurd hok (by simp)
      · obtain ⟨hmain, -⟩ := ih bad rest rs' hpre hbad
        have hmain' : (cap :: pre) ++ bad :: rest = cap :: (pre ++ bad :: rest) :=
          List.cons_append cap pre (bad :: rest)
        have hres : capsToRecs (cap :: (pre ++ bad :: rest))
            = .error "invalid level integer" := by
          unfold capsToRecs
          rw [hlv, hmain]
        refine ⟨by rw [hmain', hres], fun contents hscan => ?_⟩
        unfold parse tokenize
        rw [hscan, hmain', hres]

/-- Witness for C7: the first line of `2147483648 TAG x` carries a level
that overflows `i32`; tokenization of the two-line input fails with the
level error, and so does the whole `parse`. -/
theorem level_parse_failure_aborts_witness :
    capsToRecs ([] ++ (⟨"2147483648".data, [], "TAG".data, " x".data⟩ : RawCap)
        :: [⟨"0".data, [], "HEAD".data, " y".data⟩]) = .error "invalid level integer"
    ∧ parse "2147483648 TAG x\n0 HEAD y" = .error "invalid level integer" := by
  have h := level_parse_failure_aborts []
    ⟨"2147483648".data, [], "TAG".data, " x".data⟩
    [⟨"0".data, [], "HEAD".data, " y".data⟩] [] rfl (by decide)
  exact ⟨h.1, h.2 "2147483648 TAG x\n0 HEAD y" (by decide)⟩

/-! ## C2: pointer capture keeps the trailing space -/

/-- Every match stores either an empty pointer or the delimited identifier
*plus the trailing space*: group 2 of the pattern is `@[^@]+@ ` (the space
is inside the group), and the pointer is never trimmed. -/
theorem matchAt_pointer {s : List Char} {cap : RawCap} {r : List Char}
    (h : matchAt s = some (cap, r)) :
    cap.pointer = [] ∨
      ∃ mid : List Char, mid ≠ [] ∧ cap.pointer = '@' :: mid ++ ['@', ' '] := by
  simp only [matchAt] at h
  repeat' split at h
  all_goals try exact Option.noConfusion h
  all_goals rw [Option.some.injEq, Prod.mk.injEq] at h
  all_goals obtain ⟨hc, -⟩ := h
  all_goals subst hc
  all_goals first
    | exact Or.inl rfl
    | (refine Or.inr ⟨_, ?_, rfl⟩
       simp only [ne_eq, ← List.isEmpty_iff]
       assumption)

/-- Every capture produced by the scan obeys the pointer shape. -/
theorem scanCapsF_pointer :
    ∀ (fuel : Nat) (s : List Char) (cap : RawCap), cap ∈ scanCapsF fuel s →
      cap.pointer = [] ∨
        ∃ mid : List Char, mid ≠ [] ∧ cap.pointer = '@' :: mid ++ ['@', ' ']
  | 0, _, _, h => absurd h (by simp [scanCapsF])
  | _ + 1, [], _, h => absurd h (by simp [scanCapsF])
  | fuel + 1, c :: rest, cap, h => by
    unfold scanCapsF at h
    split at h
    · rename_i cap' r hm
      rcases List.mem_cons.mp h with hcap | hcap
      · exact hcap ▸ matchAt_pointer hm
      · exact scanCapsF_pointer fuel r cap hcap
    · exact scanCapsF_pointer fuel rest cap h

/-- C2 counterexample: the claim says tokenizing `1 @SUB1@ SUBM` stores
the pointer `"@SUB1@"` with no surrounding whitespace.  The code stores
`"@SUB1@ "`: group 2 of the pattern includes the trailing space and is
never trimmed. -/
theorem pointer_trailing_space_cex :
    tokenize "1 @SUB1@ SUBM" = .ok [⟨"", "SUBM", "@SUB1@ ", 1⟩]
    ∧ ∀ rs, tokenize "1 @SUB1@ SUBM" = .ok rs →
        rs.map Rec.pointer ≠ ["@SUB1@"] := by
  refine ⟨by rfl, fun rs hrs => ?_⟩
  rw [show tokenize "1 @SUB1@ SUBM" = .ok [⟨"", "SUBM", "@SUB1@ ", 1⟩] from rfl,
    Except.ok.injEq] at hrs
  rw [← hrs]
  decide

/-- C2 (amended): a line carrying a pointer token stores the pointer as
the delimited identifier followed by the single space matched after it
(`@...@ `), with nothing trimmed; `1 @SUB1@ SUBM` yields pointer
`"@SUB1@ "`, tag `"SUBM"`, empty data.  When no pointer is present the
field is the empty string. -/
theorem pointer_capture_amended :
    tokenize "1 @SUB1@ SUBM" = .ok [⟨"", "SUBM", "@SUB1@ ", 1⟩]
    ∧ ∀ (s : List Char) (cap : RawCap), cap ∈ scanCaps s →
        cap.pointer = [] ∨
          ∃ mid : List Char, mid ≠ [] ∧ cap.pointer = '@' :: mid ++ ['@', ' '] :=
  ⟨by rfl, fun s cap h => scanCapsF_pointer s.length s cap h⟩

/-- Witness for the amended C2: the capture of `1 @SUB1@ SUBM` has the
`@...@ ` shape. -/
theorem pointer_capture_amended_witness :
    (⟨"1".data, "@SUB1@ ".data, "SUBM".data, []⟩ : RawCap).pointer = [] ∨
      ∃ mid : List Char, mid ≠ [] ∧
        (⟨"1".data, "@SUB1@ ".data, "SUBM".data, []⟩ : RawCap).pointer
          = '@' :: mid ++ ['@', ' '] :=
  pointer_capture_amended.2 "1 @SUB1@ SUBM".data
    ⟨"1".data, "@SUB1@ ".data, "SUBM".data, []⟩ (by decide)

/-! ## Toolkit for pre-order traversals

Facts about `preOrd` used for C6: how it splits over appends, that its
fuel is irrelevant once large enough (edges strictly increase), that it
only visits nodes reachable from its start list, and how it reacts to
changing the children map at an unvisited node. -/

theorem preOrd_nil (κ : Nat → List Nat) (f : Nat) : preOrd κ f [] = [] := by
  cases f <;> rfl

theorem preOrd_zero (κ : Nat → List Nat) (is : List Nat) : preOrd κ 0 is = [] := rfl

theorem preOrd_cons (κ : Nat → List Nat) (f : Nat) (i : Nat) (is : List Nat) :
    preOrd κ (f + 1) (i :: is) = i :: (preOrd κ f (κ i) ++ preOrd κ (f + 1) is) := rfl

theorem preOrd_append (κ : Nat → List Nat) (f : Nat) (a b : List Nat) :
    preOrd κ f (a ++ b) = preOrd κ f a ++ preOrd κ f b := by
  cases f with
  | zero => rfl
  | succ f => exact List.flatMap_append ..

theorem preOrd_mem_upper {κ : Nat → List Nat} {B : Nat}
    (hκ : ∀ p q, q ∈ κ p → q < B) :
    ∀ (f : Nat) (is : List Nat), (∀ i ∈ is, i < B) →
      ∀ x ∈ preOrd κ f is, x < B
  | 0, is, _, x, hx => absurd hx (by rw [preOrd_zero]; exact List.not_mem_nil x)
  | f + 1, [], _, x, hx => absurd hx (List.not_mem_nil x)
  | f + 1, i :: is, his, x, hx => by
    rw [preOrd_cons] at hx
    rcases List.mem_cons.mp hx with rfl | hx
    · exact his x (List.mem_cons_self x is)
    · rcases List.mem_append.mp hx with hx | hx
      · exact preOrd_mem_upper hκ f (κ i) (fun q hq => hκ i q hq) x hx
      · exact preOrd_mem_upper hκ (f + 1) is
          (fun q hq => his q (List.mem_cons_of_mem i hq)) x hx

theorem preOrd_mem_lower {κ : Nat → List Nat}
    (hκ : ∀ p q, q ∈ κ p → p < q) :
    ∀ (f : Nat) (is : List Nat) (x : Nat), x ∈ preOrd κ f is →
      ∃ i ∈ is, i ≤ x
  | 0, is, x, hx => absurd hx (by rw [preOrd_zero]; exact List.not_mem_nil x)
  | f + 1, [], x, hx => absurd hx (List.not_mem_nil x)
  | f + 1, i :: is, x, hx => by
    rw [preOrd_cons] at hx
    rcases List.mem_cons.mp hx with rfl | hx
    · exact ⟨x, List.mem_cons_self x is, le_refl x⟩
    · rcases List.mem_append.mp hx with hx | hx
      · obtain ⟨q, hq, hqx⟩ := preOrd_mem_lower hκ f (κ i) x hx
        exact ⟨i, List.mem_cons_self i is, le_of_lt (lt_of_lt_of_le (hκ i q hq) hqx)⟩
      · obtain ⟨q, hq, hqx⟩ := preOrd_mem_lower hκ (f + 1) is x hx
        exact ⟨q, List.mem_cons_of_mem i hq, hqx⟩

theorem preOrd_fuel_congr {κ : Nat → List Nat} {n : Nat}
    (hκ : ∀ p q, q ∈ κ p → p < q ∧ q < n) :
    ∀ (f₁ f₂ : Nat) (is : List Nat),
      (∀ i ∈ is, i < n ∧ n - i ≤ f₁ ∧ n - i ≤ f₂) →
      preOrd κ f₁ is = preOrd κ f₂ is := by
  intro f₁
  induction f₁ with
  | zero =>
    intro f₂ is his
    have : is = [] := by
      rw [List.eq_nil_iff_forall_not_mem]
      intro i hi
      obtain ⟨h1, h2, -⟩ := his i hi
      omega
    rw [this, preOrd_nil, preOrd_nil]
  | succ f₁ ih =>
    intro f₂ is
    induction is with
    | nil => intro _; rw [preOrd_nil, preOrd_nil]
    | cons i is ihs =>
      intro his
      obtain ⟨hin, hf₁, hf₂⟩ := his i (List.mem_cons_self i is)
      cases f₂ with
      | zero => omega
      | succ f₂ =>
        rw [preOrd_cons, preOrd_cons]
        have hsub : preOrd κ f₁ (κ i) = preOrd κ f₂ (κ i) := by
          apply ih
          intro q hq
          obtain ⟨hiq, hqn⟩ := hκ i q hq
          exact ⟨hqn, by omega, by omega⟩
        have hrest : preOrd κ (f₁ + 1) is = preOrd κ (f₂ + 1) is := by
          apply ihs
          intro q hq
          exact his q (List.mem_cons_of_mem i hq)
        rw [hsub, hrest]

theorem preOrd_congr_off {κ g : Nat → List Nat} {w : Nat}
    (hag : ∀ x, x ≠ w → g x = κ x) :
    ∀ (f : Nat) (is : List Nat), w ∉ preOrd κ f is →
      preOrd g f is = preOrd κ f is
  | 0, is, _ => by rw [preOrd_zero, preOrd_zero]
  | f + 1, [], _ => rfl
  | f + 1, i :: is, hw => by
    rw [preOrd_cons] at hw ⊢
    rw [preOrd_cons]
    have hiw : i ≠ w := fun h => hw (h ▸ List.mem_cons_self i _)
    have hw1 : w ∉ preOrd κ f (κ i) :=
      fun h => hw (List.mem_cons_of_mem i (List.mem_append_left _ h))
    have hw2 : w ∉ preOrd κ (f + 1) is :=
      fun h => hw (List.mem_cons_of_mem i (List.mem_append_right _ h))
    rw [hag i hiw, preOrd_congr_off hag f (κ i) hw1, preOrd_congr_off hag (f + 1) is hw2]

theorem preOrd_inv {κ : Nat → List Nat} :
    ∀ (f : Nat) (is : List Nat) (x : Nat), x ∈ preOrd κ f is →
      x ∈ is ∨ ∃ p, x ∈ κ p ∧ p ∈ preOrd κ f is
  | 0, is, x, hx => absurd hx (by rw [preOrd_zero]; exact List.not_mem_nil x)
  | f + 1, [], x, hx => absurd hx (List.not_mem_nil x)
  | f + 1, i :: is, x, hx => by
    rw [preOrd_cons] at hx
    rcases List.mem_cons.mp hx with rfl | hx
    · exact Or.inl (List.mem_cons_self x is)
    · rcases List.mem_append.mp hx with hx | hx
      · rcases preOrd_inv f (κ i) x hx with hx | ⟨p, hp1, hp2⟩
        · refine Or.inr ⟨i, hx, ?_⟩
          rw [preOrd_cons]
          exact List.mem_cons_self i _
        · refine Or.inr ⟨p, hp1, ?_⟩
          rw [preOrd_cons]
          exact List.mem_cons_of_mem i (List.mem_append_left _ hp2)
      · rcases preOrd_inv (f + 1) is x hx with hx | ⟨p, hp1, hp2⟩
        · exact Or.inl (List.mem_cons_of_mem i hx)
        · refine Or.inr ⟨p, hp1, ?_⟩
          rw [preOrd_cons]
          exact List.mem_cons_of_mem i (List.mem_append_right _ hp2)

theorem preOrd_mem_of_mem {κ : Nat → List Nat} {f : Nat} {is : List Nat}
    {i : Nat} (h : i ∈ is) : i ∈ preOrd κ (f + 1) is := by
  induction is with
  | nil => exact absurd h (List.not_mem_nil i)
  | cons a is ih =>
    rw [preOrd_cons]
    rcases List.mem_cons.mp h with rfl | h
    · exact List.mem_cons_self i _
    · exact List.mem_cons_of_mem a (List.mem_append_right _ (ih h))

theorem preOrd_concat_last {κ : Nat → List Nat} {n : Nat}
    (hκ : ∀ p q, q ∈ κ p → p < q ∧ q < n) (K : List Nat) (w : Nat) (hwn : w < n) :
    preOrd κ n (K ++ [w]) = preOrd κ n K ++ w :: preOrd κ n (κ w) := by
  rw [preOrd_append]
  cases n with
  | zero => omega
  | succ n =>
    rw [preOrd_cons, preOrd_nil, List.append_nil]
    have : preOrd κ n (κ w) = preOrd κ (n + 1) (κ w) := by
      apply preOrd_fuel_congr hκ
      intro q hq
      obtain ⟨hwq, hqn⟩ := hκ w q hq
      exact ⟨hqn, by omega, by omega⟩
    rw [this]

theorem getLast?_split {l : List Nat} {w : Nat} (h : l.getLast? = some w) :
    ∃ K, l = K ++ [w] := by
  have hne : l ≠ [] := by
    intro hl
    rw [hl] at h
    exact Option.noConfusion h
  have h2 := List.getLast?_eq_getLast l hne
  rw [h2, Option.some.injEq] at h
  refine ⟨l.dropLast, ?_⟩
  rw [← h]
  exact (List.dropLast_append_getLast hne).symm

theorem chain'_suffix {α : Type} {R : α → α → Prop} {l t : List α}
    (hc : List.Chain' R l) (hs : t <:+ l) : List.Chain' R t := by
  obtain ⟨pre, rfl⟩ := hs
  exact (List.chain'_append.mp hc).2.1

theorem preOrd_mem_child {κ : Nat → List Nat} {n : Nat}
    (hκ : ∀ p q, q ∈ κ p → p < q ∧ q < n) :
    ∀ (f : Nat) (is : List Nat), (∀ i ∈ is, i < n ∧ n - i ≤ f) →
      ∀ i, i ∈ preOrd κ f is → ∀ j ∈ κ i, j ∈ preOrd κ f is
  | 0, is, _, i, hi, j, _ => absurd hi (by rw [preOrd_zero]; exact List.not_mem_nil i)
  | f + 1, [], _, i, hi, j, _ => absurd hi (List.not_mem_nil i)
  | f + 1, a :: is, his, i, hi, j, hj => by
    rw [preOrd_cons] at hi ⊢
    rcases List.mem_cons.mp hi with rfl | hi
    · refine List.mem_cons_of_mem i (List.mem_append_left _ ?_)
      obtain ⟨hin, hfi⟩ := his i (List.mem_cons_self i is)
      obtain ⟨hij, hjn⟩ := hκ i j hj
      cases f with
      | zero => omega
      | succ f => exact preOrd_mem_of_mem hj
    · rcases List.mem_append.mp hi with hi | hi
      · refine List.mem_cons_of_mem a (List.mem_append_left _ ?_)
        obtain ⟨han, hfa⟩ := his a (List.mem_cons_self a is)
        refine preOrd_mem_child hκ f (κ a) ?_ i hi j hj
        intro q hq
        obtain ⟨haq, hqn⟩ := hκ a q hq
        exact ⟨hqn, by omega⟩
      · refine List.mem_cons_of_mem a (List.mem_append_right _ ?_)
        exact preOrd_mem_child hκ (f + 1) is
          (fun q hq => his q (List.mem_cons_of_mem a hq)) i hi j hj

/-! ## The spine of the builder's stack

The candidate that survives unwinding sits on the stack; when the whole
stack below it is an attached chain of last children, appending a new
child to the candidate appends exactly one element at the end of the
pre-order traversal of the forest; when the chain is broken somewhere
below, the candidate is unreachable from the root and the traversal does
not change at all. -/

/-- The `children` vector of a stack entry (`none` is the synthetic
root). -/
def kidsE (st : BState) : Option Nat → List Nat
  | none => st.rootKids
  | some i => st.kids i

/-- Adjacency invariant for two consecutive stack entries `a` (above) and
`b` (below): `b` is the only entry whose `children` vector may hold `a`,
and if it does, `a` is its last child. -/
def Adj (st : BState) (a b : Option Nat) : Prop :=
  ∀ av, a = some av →
    (∀ p, av ∈ kidsE st p → p = b) ∧
    (av ∈ kidsE st b → (kidsE st b).getLast? = some av)

/-- The stack suffix is an attached chain all the way down to the
synthetic root. -/
def ACStack (st : BState) : List (Option Nat) → Prop
  | [none] => True
  | some v :: d :: t => v ∈ kidsE st d ∧ ACStack st (d :: t)
  | _ => False

/-- `ChainUp κ w e` : starting from `e` and repeatedly descending to the
last child, one reaches `w` (`e` is an ancestor of `w`, or `w` itself). -/
inductive ChainUp (κ : Nat → List Nat) (w : Nat) : Nat → Prop
  | refl : ChainUp κ w w
  | step {e d} : (κ e).getLast? = some d → ChainUp κ w d → ChainUp κ w e

theorem mem_of_getLast?_eq {α : Type} {l : List α} {a : α}
    (h : l.getLast? = some a) : a ∈ l :=
  List.mem_of_mem_getLast? h

theorem chainUp_snoc {κ : Nat → List Nat} {d v : Nat}
    (hl : (κ d).getLast? = some v) :
    ∀ {e}, ChainUp κ d e → ChainUp κ v e := by
  intro e h
  induction h with
  | refl => exact ChainUp.step hl ChainUp.refl
  | step h1 _ ih => exact ChainUp.step h1 ih

theorem chainUp_le {κ : Nat → List Nat}
    (hκ : ∀ p q, q ∈ κ p → p < q) {w e : Nat} (h : ChainUp κ w e) : e ≤ w := by
  induction h with
  | refl => exact le_refl w
  | step h1 _ ih =>
    exact le_of_lt (lt_of_lt_of_le (hκ _ _ (mem_of_getLast?_eq h1)) ih)

/-- A node's subtree traversal is contained in the traversal of any list
containing the node. -/
theorem preOrd_subtree_subset {κ : Nat → List Nat} {f : Nat} {is : List Nat}
    {i x : Nat} (hi : i ∈ is) (hx : x ∈ i :: preOrd κ f (κ i)) :
    x ∈ preOrd κ (f + 1) is := by
  induction is with
  | nil => exact absurd hi (List.not_mem_nil i)
  | cons a is ih =>
    rw [preOrd_cons]
    rcases List.mem_cons.mp hi with rfl | hi
    · rcases List.mem_cons.mp hx with rfl | hx
      · exact List.mem_cons_self x _
      · exact List.mem_cons_of_mem i (List.mem_append_left _ hx)
    · exact List.mem_cons_of_mem a (List.mem_append_right _ (ih hi))

/-- The end of a descending chain lies in the subtree of its start. -/
theorem chainUp_mem {κ : Nat → List Nat} {n : Nat}
    (hκ : ∀ p q, q ∈ κ p → p < q ∧ q < n) {w e : Nat} (h : ChainUp κ w e) :
    w = e ∨ w ∈ preOrd κ n (κ e) := by
  induction h with
  | refl => exact Or.inl rfl
  | step h1 h2 ih =>
    rename_i e' d'
    have hdmem : d' ∈ κ e' := mem_of_getLast?_eq h1
    obtain ⟨hed, hdn⟩ := hκ _ _ hdmem
    obtain ⟨n', rfl⟩ : ∃ n', n = n' + 1 := ⟨n - 1, by omega⟩
    rcases ih with rfl | hw
    · exact Or.inr (preOrd_mem_of_mem hdmem)
    · refine Or.inr (preOrd_subtree_subset hdmem (List.mem_cons_of_mem _ ?_))
      have hcongr : preOrd κ n' (κ d') = preOrd κ (n' + 1) (κ d') := by
        apply preOrd_fuel_congr hκ
        intro q hq
        obtain ⟨hdq, hqn⟩ := hκ _ q hq
        exact ⟨hqn, by omega, by omega⟩
      rw [hcongr]
      exact hw

/-- Walking the chain upward while keeping a shared decomposition prefix
for the original and the updated map. -/
theorem spine_up {κ g : Nat → List Nat} {ρ : List Nat} {n w : Nat}
    (hκ : ∀ p q, q ∈ κ p → p < q ∧ q < n)
    (hg : ∀ p q, q ∈ g p → p < q ∧ q < n)
    (hnd : (preOrd κ n ρ).Nodup)
    (hag : ∀ x, x ≠ w → g x = κ x) :
    ∀ e, ChainUp κ w e → ∀ Q : List Nat,
      preOrd κ n ρ = Q ++ e :: preOrd κ n (κ e) →
      preOrd g n ρ = Q ++ e :: preOrd g n (g e) →
      ∃ P₀ : List Nat,
        preOrd κ n ρ = P₀ ++ w :: preOrd κ n (κ w) ∧
        preOrd g n ρ = P₀ ++ w :: preOrd g n (g w) := by
  intro e hch
  induction hch with
  | refl => exact fun Q h1 h2 => ⟨Q, h1, h2⟩
  | step h1 h2 ih =>
    intro Q hQκ hQg
    rename_i e d
    have hdmem : d ∈ κ e := mem_of_getLast?_eq h1
    obtain ⟨hed, hdn⟩ := hκ e d hdmem
    obtain ⟨K, hK⟩ := getLast?_split h1
    have expκ : preOrd κ n (κ e) = preOrd κ n K ++ d :: preOrd κ n (κ d) := by
      rw [hK]
      exact preOrd_concat_last hκ K d hdn
    have eqκ' : preOrd κ n ρ
        = (Q ++ e :: preOrd κ n K) ++ d :: preOrd κ n (κ d) := by
      rw [hQκ, expκ]
      simp
    have hwK : w ∉ preOrd κ n K := by
      intro hmem
      have hnd' := eqκ' ▸ hnd
      rw [List.nodup_append] at hnd'
      have hwd : w ∈ d :: preOrd κ n (κ d) := by
        rcases chainUp_mem hκ h2 with rfl | hw
        · exact List.mem_cons_self w _
        · exact List.mem_cons_of_mem d hw
      exact hnd'.2.2
        (List.mem_append_right _ (List.mem_cons_of_mem e hmem)) hwd
    have hew : e ≠ w := by
      have := chainUp_le (fun p q hq => (hκ p q hq).1) h2
      omega
    have expg : preOrd g n (g e) = preOrd κ n K ++ d :: preOrd g n (g d) := by
      rw [hag e hew, hK, preOrd_concat_last hg K d hdn,
        preOrd_congr_off hag n K hwK]
    have eqg' : preOrd g n ρ
        = (Q ++ e :: preOrd κ n K) ++ d :: preOrd g n (g d) := by
      rw [hQg, expg]
      simp
    exact ih (Q ++ e :: preOrd κ n K) eqκ' eqg'

/-- The spine decomposition: when `w` hangs from the root list by a chain
of last children, the traversal splits around `w` with the same prefix for
the original map and for a map changed only at `w`. -/
theorem spine_decomp {κ g : Nat → List Nat} {ρ : List Nat} {n w e₀ : Nat}
    (hκ : ∀ p q, q ∈ κ p → p < q ∧ q < n)
    (hg : ∀ p q, q ∈ g p → p < q ∧ q < n)
    (hρ : ∀ x ∈ ρ, x < n)
    (hnd : (preOrd κ n ρ).Nodup)
    (hag : ∀ x, x ≠ w → g x = κ x)
    (hρlast : ρ.getLast? = some e₀)
    (hch : ChainUp κ w e₀) :
    ∃ P₀ : List Nat,
      preOrd κ n ρ = P₀ ++ w :: preOrd κ n (κ w) ∧
      preOrd g n ρ = P₀ ++ w :: preOrd g n (g w) := by
  obtain ⟨K₀, hK₀⟩ := getLast?_split hρlast
  have he₀ : e₀ < n := hρ e₀ (by rw [hK₀]; simp)
  have eqκ : preOrd κ n ρ = preOrd κ n K₀ ++ e₀ :: preOrd κ n (κ e₀) := by
    rw [hK₀]
    exact preOrd_concat_last hκ K₀ e₀ he₀
  have hwK : w ∉ preOrd κ n K₀ := by
    intro hmem
    have hnd' := eqκ ▸ hnd
    rw [List.nodup_append] at hnd'
    have hwe : w ∈ e₀ :: preOrd κ n (κ e₀) := by
      rcases chainUp_mem hκ hch with rfl | hw
      · exact List.mem_cons_self w _
      · exact List.mem_cons_of_mem e₀ hw
    exact hnd'.2.2 hmem hwe
  have eqg : preOrd g n ρ = preOrd κ n K₀ ++ e₀ :: preOrd g n (g e₀) := by
    by_cases he₀w : e₀ = w
    · subst he₀w
      rw [hK₀, preOrd_concat_last hg K₀ e₀ he₀, preOrd_congr_off hag n K₀ hwK]
    · rw [hK₀, preOrd_concat_last hg K₀ e₀ he₀, preOrd_congr_off hag n K₀ hwK,
        hag e₀ he₀w]
  exact spine_up hκ hg hnd hag e₀ hch (preOrd κ n K₀) eqκ eqg

/-- Unwinding returns a suffix of the popped stack. -/
theorem unwind_suffix {recs : List Rec} {l : Int} :
    ∀ (p : Option Nat) (prest : List (Option Nat)) (c : Option Nat)
      (rest : List (Option Nat)),
      unwind recs l p prest = some (c, rest) → c :: rest <:+ p :: prest := by
  intro p prest
  induction prest generalizing p with
  | nil =>
    intro c rest h
    unfold unwind at h
    split at h
    · exact absurd h (by simp)
    · rw [Option.some.injEq, Prod.mk.injEq] at h
      rw [h.1, h.2]
  | cons q prest' ih =>
    intro c rest h
    unfold unwind at h
    split at h
    · exact (ih q c rest h).trans (List.suffix_cons p (q :: prest'))
    · rw [Option.some.injEq, Prod.mk.injEq] at h
      rw [h.1, h.2]

/-- A non-empty suffix of a well-shaped stack is well shaped. -/
theorem suffix_shape :
    ∀ (us : List Nat) (T : List (Option Nat)),
      T <:+ us.map some ++ [none] → T ≠ [] →
      ∃ us₂, T = us₂.map some ++ [none] ∧ us₂ <:+ us := by
  intro us
  induction us with
  | nil =>
    intro T hT hne
    rcases List.suffix_cons_iff.mp hT with h | h
    · exact ⟨[], h, List.suffix_rfl⟩
    · rw [List.suffix_nil] at h
      exact absurd h hne
  | cons u us ih =>
    intro T hT hne
    rcases List.suffix_cons_iff.mp hT with h | h
    · exact ⟨u :: us, h, List.suffix_rfl⟩
    · obtain ⟨us₂, h1, h2⟩ := ih T h hne
      exact ⟨us₂, h1, h2.trans (List.suffix_cons u us)⟩

/-- An attached stack suffix gives a descending chain of last children
from the root's last child to the suffix's top. -/
theorem acStack_chain {st : BState} (hadj : st.stack.Chain' (Adj st)) :
    ∀ (T : List (Option Nat)), T <:+ st.stack → ACStack st T →
      ∀ w, T.head? = some (some w) →
      ∃ e₀, st.rootKids.getLast? = some e₀ ∧ ChainUp st.kids w e₀
  | [], _, _, w, hh => absurd hh (by simp)
  | none :: T', _, _, w, hh => by
    rw [List.head?_cons, Option.some.injEq] at hh
    exact Option.noConfusion hh
  | [some v], _, hAC, w, hh => (hAC : False).elim
  | some v :: d :: t, hsuf, hAC, w, hh => by
    rw [List.head?_cons, Option.some.injEq, Option.some.injEq] at hh
    subst hh
    obtain ⟨hmem, hAC'⟩ : v ∈ kidsE st d ∧ ACStack st (d :: t) := hAC
    have hchain := chain'_suffix hadj hsuf
    have hadjp : Adj st (some v) d := (List.chain'_cons.mp hchain).1
    have hlast := (hadjp v rfl).2 hmem
    cases d with
    | none => exact ⟨v, hlast, ChainUp.refl⟩
    | some dv =>
      obtain ⟨e₀, hroot, hup⟩ := acStack_chain hadj (some dv :: t)
        ((List.suffix_cons (some v) (some dv :: t)).trans hsuf) hAC' dv rfl
      exact ⟨e₀, hroot, chainUp_snoc hlast hup⟩

/-- The top of a broken stack suffix is not reachable from the root: it
does not occur in the pre-order traversal. -/
theorem notAC_not_mem {recs : List Rec} {st : BState}
    (hadj : st.stack.Chain' (Adj st))
    (us : List Nat) (hshape : st.stack = us.map some ++ [none]) :
    ∀ (T : List (Option Nat)), T <:+ st.stack → ¬ ACStack st T →
      ∀ w, T.head? = some (some w) →
      w ∉ preOrd st.kids recs.length st.rootKids
  | [], _, _, w, hh => absurd hh (by simp)
  | none :: T', _, _, w, hh => by
    rw [List.head?_cons, Option.some.injEq] at hh
    exact Option.noConfusion hh
  | [some v], hsuf, _, w, hh => by
    obtain ⟨pre, hpre⟩ := hsuf
    rw [hshape] at hpre
    have h1 : (pre ++ [some v]).getLast? = some (some v) := List.getLast?_concat _
    have h2 : (us.map some ++ [none]).getLast? = some none := List.getLast?_concat _
    rw [hpre, h2, Option.some.injEq] at h1
    exact Option.noConfusion h1
  | some v :: d :: t, hsuf, hnAC, w, hh => by
    rw [List.head?_cons, Option.some.injEq, Option.some.injEq] at hh
    subst hh
    intro hmem
    have hchain := chain'_suffix hadj hsuf
    have hadjp : Adj st (some v) d := (List.chain'_cons.mp hchain).1
    by_cases hkd : v ∈ kidsE st d
    · have hAC' : ¬ ACStack st (d :: t) := fun h =>
        hnAC (show v ∈ kidsE st d ∧ ACStack st (d :: t) from ⟨hkd, h⟩)
      cases d with
      | none =>
        obtain ⟨us₂, hT₂, -⟩ := suffix_shape us (none :: t)
          (hshape ▸ (List.suffix_cons (some v) (none :: t)).trans hsuf) (by simp)
        cases us₂ with
        | nil =>
          rw [List.map_nil, List.nil_append] at hT₂
          have ht : t = [] := by
            injection hT₂
          rw [ht] at hAC'
          exact hAC' trivial
        | cons a us₃ =>
          rw [List.map_cons] at hT₂
          injection hT₂ with h1 h2
          exact Option.noConfusion h1
      | some dv =>
        have hdP : dv ∉ preOrd st.kids recs.length st.rootKids :=
          notAC_not_mem hadj us hshape (some dv :: t)
            ((List.suffix_cons (some v) (some dv :: t)).trans hsuf) hAC' dv rfl
        rcases preOrd_inv _ _ _ hmem with hroot | ⟨p, hp1, hp2⟩
        · have := (hadjp v rfl).1 none hroot
          exact Option.noConfusion this
        · have := (hadjp v rfl).1 (some p) hp1
          rw [Option.some.injEq] at this
          rw [this] at hp2
          exact hdP hp2
    · rcases preOrd_inv _ _ _ hmem with hroot | ⟨p, hp1, hp2⟩
      · have hd := (hadjp v rfl).1 none hroot
        rw [← hd] at hkd
        exact hkd hroot
      · have hd := (hadjp v rfl).1 (some p) hp1
        rw [← hd] at hkd
        exact hkd hp1

/-! ## The master invariant of `build_tree` -/

/-- Invariant after the first `m` records have been processed: the stack
is record positions (strictly decreasing top to bottom) on top of the
synthetic root, every recorded child edge goes strictly forward in
document order, consecutive stack entries satisfy the adjacency
conditions, and the pre-order traversal of the forest is strictly
increasing. -/
structure MasterInv (recs : List Rec) (m : Nat) (st : BState) : Prop where
  shape : ∃ us : List Nat, st.stack = us.map some ++ [none] ∧ us.Chain' (· > ·)
  sBound : ∀ v : Nat, some v ∈ st.stack → v < m
  kBound : ∀ i x, x ∈ st.kids i → i < x ∧ x < m
  rBound : ∀ x ∈ st.rootKids, x < m
  adj : st.stack.Chain' (Adj st)
  sortedP : (preOrd st.kids recs.length st.rootKids).Chain' (· < ·)

theorem master_init (recs : List Rec) : MasterInv recs 0 initState := by
  refine ⟨⟨[], rfl, List.chain'_nil⟩, ?_, ?_, ?_, ?_, ?_⟩
  · intro v hv
    rcases List.mem_cons.mp hv with h | h
    · exact Option.noConfusion h
    · exact absurd h (List.not_mem_nil _)
  · intro i x hx
    exact absurd hx (List.not_mem_nil x)
  · intro x hx
    exact absurd hx (List.not_mem_nil x)
  · exact List.chain'_singleton none
  · rw [show initState.rootKids = [] from rfl, preOrd_nil]
    exact List.chain'_nil

/-- Transfer of the adjacency condition to the updated state, for pairs
whose lower entry is not the update point. -/
theorem adj_pair_transfer {st st' : BState} {c : Option Nat} {L : List Nat}
    {m : Nat} {a b : Option Nat}
    (hke : ∀ e, kidsE st' e = if e = c then kidsE st c ++ L else kidsE st e)
    (hL : ∀ x ∈ L, x = m)
    (hadj : Adj st a b) (hbc : b ≠ c)
    (hav : ∀ av, a = some av → av < m) :
    Adj st' a b := by
  intro av hae
  obtain ⟨ha1, ha2⟩ := hadj av hae
  have havm : av < m := hav av hae
  constructor
  · intro p hp
    rw [hke p] at hp
    by_cases hpc : p = c
    · rw [if_pos hpc] at hp
      rcases List.mem_append.mp hp with hp | hp
      · rw [hpc]
        exact ha1 c hp
      · have := hL av hp
        omega
    · rw [if_neg hpc] at hp
      exact ha1 p hp
  · intro hp
    rw [hke b, if_neg hbc] at hp ⊢
    exact ha2 hp

theorem chain_adj_transfer {st st' : BState} {c : Option Nat} {L : List Nat}
    {m : Nat}
    (hke : ∀ e, kidsE st' e = if e = c then kidsE st c ++ L else kidsE st e)
    (hL : ∀ x ∈ L, x = m) :
    ∀ T : List (Option Nat), T.Chain' (Adj st) →
      (∀ b ∈ T.tail, b ≠ c) → (∀ av : Nat, some av ∈ T → av < m) →
      T.Chain' (Adj st')
  | [], _, _, _ => List.chain'_nil
  | [x], _, _, _ => List.chain'_singleton x
  | x :: y :: t, hch, htl, hmem => by
    obtain ⟨hpair, hch'⟩ := List.chain'_cons.mp hch
    refine List.chain'_cons.mpr ⟨?_, ?_⟩
    · refine adj_pair_transfer hke hL hpair ?_ ?_
      · exact htl y (List.mem_cons_self y t)
      · intro av hae
        exact hmem av (hae ▸ List.mem_cons_self x (y :: t))
    · refine chain_adj_transfer hke hL (y :: t) hch' ?_ ?_
      · intro b hb
        exact htl b (List.mem_cons_of_mem y hb)
      · intro av hav
        exact hmem av (List.mem_cons_of_mem x hav)

/-- One iteration of the loop preserves the master invariant. -/
theorem step_master {recs : List Rec} {m : Nat} {st st' : BState}
    (hm : m < recs.length) (hInv : MasterInv recs m st)
    (h : step recs st m = some st') : MasterInv recs (m + 1) st' := by
  obtain ⟨us, hsh, hdesc⟩ := hInv.shape
  obtain ⟨p, prest, hpp⟩ : ∃ p prest, st.stack = p :: prest := by
    cases us with
    | nil => exact ⟨none, [], by simpa using hsh⟩
    | cons u us' => exact ⟨some u, us'.map some ++ [none], by simpa using hsh⟩
  rw [step_cons recs st m p prest hpp] at h
  cases hu : unwind recs (lvlOf recs m) p prest with
  | none =>
    rw [hu] at h
    exact absurd h (by simp)
  | some cr =>
    obtain ⟨c, rest⟩ := cr
    rw [hu] at h
    dsimp only at h
    have hsuf : c :: rest <:+ st.stack := hpp ▸ unwind_suffix p prest c rest hu
    obtain ⟨us₂, hT₂, hus₂⟩ := suffix_shape us (c :: rest) (hsh ▸ hsuf) (by simp)
    have hkbE : ∀ p x, x ∈ kidsE st p → x < m := by
      intro p x hx
      cases p with
      | none => exact hInv.rBound x hx
      | some i => exact (hInv.kBound i x hx).2
    have hus₂lt : ∀ v ∈ us₂, v < m := by
      intro v hv
      apply hInv.sBound
      apply hsuf.mem
      rw [hT₂]
      exact List.mem_append_left _ (List.mem_map_of_mem some hv)
    have hclt : ∀ w, c = some w → w < m := by
      intro w hw
      exact hInv.sBound w (hsuf.mem (hw ▸ List.mem_cons_self c rest))
    have hrestlt : ∀ v, some v ∈ rest → v < m := by
      intro v hv
      exact hInv.sBound v (hsuf.mem (List.mem_cons_of_mem c hv))
    have hdist : ∀ b ∈ rest, b ≠ c := by
      cases us₂ with
      | nil =>
        rw [List.map_nil, List.nil_append] at hT₂
        injection hT₂ with h1 h2
        intro b hb
        rw [h2] at hb
        exact absurd hb (List.not_mem_nil b)
      | cons w us₃ =>
        rw [List.map_cons, List.cons_append] at hT₂
        injection hT₂ with h1 h2
        intro b hb heq
        rw [h2] at hb
        rcases List.mem_append.mp hb with hb | hb
        · obtain ⟨v, hv, hveq⟩ := List.mem_map.mp hb
          rw [← hveq, h1] at heq
          have hvw : v = w := by injection heq
          have hchain₂ : (w :: us₃).Chain' (· > ·) :=
            hdesc.sublist hus₂.sublist
          have hgt := List.rel_of_pairwise_cons
            (List.chain'_iff_pairwise.mp hchain₂) hv
          omega
        · rw [List.mem_singleton.mp hb, h1] at heq
          exact Option.noConfusion heq
    -- common builders for the new state
    have hshape' : ∀ Z : BState, Z.stack = some m :: c :: rest →
        ∃ us' : List Nat, Z.stack = us'.map some ++ [none] ∧
          us'.Chain' (· > ·) := by
      intro Z hZ
      refine ⟨m :: us₂, ?_, ?_⟩
      · rw [hZ, hT₂, List.map_cons, List.cons_append]
      · refine List.chain'_cons'.mpr ⟨?_, hdesc.sublist hus₂.sublist⟩
        intro y hy
        exact hus₂lt y (List.mem_of_mem_head? hy)
    have hsB' : ∀ Z : BState, Z.stack = some m :: c :: rest →
        ∀ v : Nat, some v ∈ Z.stack → v < m + 1 := by
      intro Z hZ v hv
      rw [hZ] at hv
      rcases List.mem_cons.mp hv with hv | hv
      · have : v = m := Option.some.inj hv
        omega
      · have := hInv.sBound v (hsuf.mem hv)
        omega
    have hadj' : ∀ (Z : BState) (L : List Nat), (L = [] ∨ L = [m]) →
        Z.stack = some m :: c :: rest →
        (∀ e, kidsE Z e = if e = c then kidsE st c ++ L else kidsE st e) →
        Z.stack.Chain' (Adj Z) := by
      intro Z L hL hZs hke
      have hLm : ∀ x ∈ L, x = m := by
        rcases hL with rfl | rfl
        · intro x hx
          exact absurd hx (List.not_mem_nil x)
        · intro x hx
          exact List.mem_singleton.mp hx
      rw [hZs]
      refine List.chain'_cons.mpr ⟨?_, ?_⟩
      · intro av hae
        have havm : m = av := by injection hae
        subst havm
        constructor
        · intro q hq
          rw [hke q] at hq
          by_cases hqc : q = c
          · exact hqc
          · rw [if_neg hqc] at hq
            have := hkbE q m hq
            omega
        · intro hp
          rw [hke c, if_pos rfl] at hp ⊢
          rcases List.mem_append.mp hp with hp | hp
          · have := hkbE c m hp
            omega
          · rcases hL with rfl | rfl
            · exact absurd hp (List.not_mem_nil m)
            · exact List.getLast?_concat _
      · refine chain_adj_transfer hke hLm (c :: rest)
          (chain'_suffix hInv.adj hsuf) ?_ ?_
        · exact hdist
        · intro av hav
          rcases List.mem_cons.mp hav with hav | hav
          · exact hclt av hav.symm
          · exact hrestlt av hav
    have hedges : ∀ p q, q ∈ st.kids p → p < q ∧ q < recs.length := by
      intro p q hq
      obtain ⟨h1, h2⟩ := hInv.kBound p q hq
      exact ⟨h1, by omega⟩
    have hPlt : ∀ x ∈ preOrd st.kids recs.length st.rootKids, x < m := by
      apply preOrd_mem_upper
      · intro p q hq
        exact (hInv.kBound p q hq).2
      · exact hInv.rBound
    have hkm : st.kids m = [] := by
      rw [List.eq_nil_iff_forall_not_mem]
      intro x hx
      obtain ⟨h1, h2⟩ := hInv.kBound m x hx
      omega
    have hsortApp : (preOrd st.kids recs.length st.rootKids ++ [m]).Chain' (· < ·) := by
      refine List.chain'_append.mpr ⟨hInv.sortedP, List.chain'_singleton m, ?_⟩
      intro x hx y hy
      have hxm := hPlt x (List.mem_of_mem_getLast? hx)
      have hym : y = m := (Option.some.inj (hy : some m = some y)).symm
      omega
    by_cases hg : entryLevel recs c = lvlOf recs m - 1
    · rw [if_pos hg] at h
      cases c with
      | none =>
        have hrest : rest = [] := by
          cases us₂ with
          | nil =>
            rw [List.map_nil, List.nil_append] at hT₂
            cases rest with
            | nil => rfl
            | cons r rs => simp at hT₂
          | cons w us₃ =>
            rw [List.map_cons, List.cons_append] at hT₂
            injection hT₂ with h1 h2
            exact absurd h1 (by simp)
        subst hrest
        rw [Option.some.injEq] at h
        subst h
        have hke : ∀ e, kidsE (⟨some m :: none :: [], st.rootKids ++ [m],
            st.kids⟩ : BState) e
            = if e = (none : Option Nat) then kidsE st none ++ [m]
              else kidsE st e := by
          intro e
          cases e with
          | none => rfl
          | some i => rfl
        refine ⟨hshape' _ rfl, hsB' _ rfl, ?_, ?_, hadj' _ [m] (Or.inr rfl) rfl hke, ?_⟩
        · intro i x hx
          obtain ⟨h1, h2⟩ := hInv.kBound i x hx
          exact ⟨h1, by omega⟩
        · intro x hx
          rcases List.mem_append.mp hx with hx | hx
          · have := hInv.rBound x hx
            omega
          · rw [List.mem_singleton.mp hx]
            omega
        · show (preOrd st.kids recs.length (st.rootKids ++ [m])).Chain' (· < ·)
          rw [preOrd_concat_last hedges st.rootKids m hm, hkm, preOrd_nil]
          exact hsortApp
      | some w =>
        rw [Option.some.injEq] at h
        subst h
        have hwm : w < m := hclt w rfl
        have hke : ∀ e, kidsE (⟨some m :: some w :: rest, st.rootKids,
            Function.update st.kids w (st.kids w ++ [m])⟩ : BState) e
            = if e = some w then kidsE st (some w) ++ [m] else kidsE st e := by
          intro e
          cases e with
          | none =>
            rw [if_neg (by simp)]
            rfl
          | some i =>
            by_cases hiw : i = w
            · subst hiw
              rw [if_pos rfl]
              exact Function.update_same ..
            · rw [if_neg (by simpa using hiw)]
              exact Function.update_noteq hiw ..
        have hgup : ∀ p q, q ∈ Function.update st.kids w (st.kids w ++ [m]) p →
            p < q ∧ q < recs.length := by
          intro p q hq
          by_cases hpw : p = w
          · subst hpw
            rw [Function.update_same] at hq
            rcases List.mem_append.mp hq with hq | hq
            · exact hedges p q hq
            · rw [List.mem_singleton.mp hq]
              exact ⟨hwm, hm⟩
          · rw [Function.update_noteq hpw] at hq
            exact hedges p q hq
        refine ⟨hshape' _ rfl, hsB' _ rfl, ?_, ?_,
          hadj' _ [m] (Or.inr rfl) rfl hke, ?_⟩
        · intro i x hx
          replace hx : x ∈ Function.update st.kids w (st.kids w ++ [m]) i := hx
          by_cases hiw : i = w
          · subst hiw
            rw [Function.update_same] at hx
            rcases List.mem_append.mp hx with hx | hx
            · obtain ⟨h1, h2⟩ := hInv.kBound i x hx
              exact ⟨h1, by omega⟩
            · rw [List.mem_singleton.mp hx]
              exact ⟨hwm, by omega⟩
          · rw [Function.update_noteq hiw] at hx
            obtain ⟨h1, h2⟩ := hInv.kBound i x hx
            exact ⟨h1, by omega⟩
        · intro x hx
          have := hInv.rBound x hx
          omega
        · show (preOrd (Function.update st.kids w (st.kids w ++ [m]))
            recs.length st.rootKids).Chain' (· < ·)
          have hag : ∀ x, x ≠ w →
              Function.update st.kids w (st.kids w ++ [m]) x = st.kids x := by
            intro x hx
            exact Function.update_noteq hx ..
          by_cases hac : ACStack st (some w :: rest)
          · -- attached chain: the traversal gains `m` at its end
            obtain ⟨e₀, hroot, hup⟩ := acStack_chain hInv.adj (some w :: rest)
              hsuf hac w rfl
            have hnd : (preOrd st.kids recs.length st.rootKids).Nodup :=
              (List.chain'_iff_pairwise.mp hInv.sortedP).nodup
            have hρn : ∀ x ∈ st.rootKids, x < recs.length := by
              intro x hx
              have := hInv.rBound x hx
              omega
            obtain ⟨P₀, eqκ, eqg⟩ := spine_decomp hedges hgup hρn hnd hag hroot hup
            have hmw : m ≠ w := by omega
            have hsubeq : preOrd (Function.update st.kids w (st.kids w ++ [m]))
                recs.length (Function.update st.kids w (st.kids w ++ [m]) w)
                = preOrd st.kids recs.length (st.kids w) ++ [m] := by
              rw [Function.update_same]
              rw [preOrd_concat_last hgup (st.kids w) m hm]
              rw [Function.update_noteq hmw, hkm, preOrd_nil]
              have hwnot : w ∉ preOrd st.kids recs.length (st.kids w) := by
                intro hmem
                obtain ⟨i, hi, hle⟩ := preOrd_mem_lower
                  (fun p q hq => (hedges p q hq).1) _ _ _ hmem
                have := (hedges w i hi).1
                omega
              rw [preOrd_congr_off hag recs.length (st.kids w) hwnot]
            rw [eqg, hsubeq]
            have hassoc : P₀ ++ w :: (preOrd st.kids recs.length (st.kids w) ++ [m])
                = (P₀ ++ w :: preOrd st.kids recs.length (st.kids w)) ++ [m] := by
              simp
            rw [hassoc, ← eqκ]
            exact hsortApp
          · -- broken chain: the candidate is unreachable, nothing changes
            have hwnP := @notAC_not_mem recs st hInv.adj us hsh (some w :: rest) hsuf hac w rfl
            rw [preOrd_congr_off hag recs.length st.rootKids hwnP]
            exact hInv.sortedP
    · rw [if_neg hg] at h
      rw [Option.some.injEq] at h
      subst h
      have hke : ∀ e, kidsE (⟨some m :: c :: rest, st.rootKids, st.kids⟩ : BState) e
          = if e = c then kidsE st c ++ [] else kidsE st e := by
        intro e
        by_cases hec : e = c
        · subst hec
          rw [if_pos rfl, List.append_nil]
          cases e with
          | none => rfl
          | some i => rfl
        · rw [if_neg hec]
          cases e with
          | none => rfl
          | some i => rfl
      refine ⟨hshape' _ rfl, hsB' _ rfl, ?_, ?_,
        hadj' _ [] (Or.inl rfl) rfl hke, ?_⟩
      · intro i x hx
        obtain ⟨h1, h2⟩ := hInv.kBound i x hx
        exact ⟨h1, by omega⟩
      · intro x hx
        have := hInv.rBound x hx
        omega
      · exact hInv.sortedP

theorem buildSteps_append (recs : List Rec) :
    ∀ (js₁ js₂ : List Nat) (st : BState),
      buildSteps recs (js₁ ++ js₂) st =
        match buildSteps recs js₁ st with
        | none => none
        | some st₁ => buildSteps recs js₂ st₁
  | [], js₂, st => rfl
  | j :: js₁, js₂, st => by
    have h1 : buildSteps recs (j :: js₁ ++ js₂) st
        = match step recs st j with
          | none => none
          | some st₁ => buildSteps recs (js₁ ++ js₂) st₁ := rfl
    have h2 : buildSteps recs (j :: js₁) st
        = match step recs st j with
          | none => none
          | some st₁ => buildSteps recs js₁ st₁ := rfl
    rw [h1, h2]
    cases step recs st j with
    | none => rfl
    | some st₁ => exact buildSteps_append recs js₁ js₂ st₁

/-- The master invariant holds after every prefix of the run. -/
theorem buildSteps_master (recs : List Rec) :
    ∀ (m : Nat), m ≤ recs.length → ∀ st : BState,
      buildSteps recs (List.range m) initState = some st →
      MasterInv recs m st
  | 0, _, st, h => by
    rw [List.range_zero] at h
    cases h
    exact master_init recs
  | m + 1, hm, st, h => by
    rw [List.range_succ, buildSteps_append] at h
    split at h
    · exact absurd h (by simp)
    · rename_i st₁ h₁
      have hInv₁ := buildSteps_master recs m (by omega) st₁ h₁
      unfold buildSteps at h
      split at h
      · exact absurd h (by simp)
      · rename_i st₂ h₂
        have h3 : st₂ = st := by
          rw [show buildSteps recs [] st₂ = some st₂ from rfl,
            Option.some.injEq] at h
          exact h
        rw [← h3]
        exact step_master (by omega) hInv₁ h₂

/-- The master invariant at the end of a full successful build. -/
theorem build_master {recs : List Rec} {st : BState} (h : build recs = some st) :
    MasterInv recs recs.length st :=
  buildSteps_master recs recs.length (le_refl _) st h

/-! ## C6: pre-order tags versus document order -/

/-- Everything in the traversal is reachable from the synthetic root. -/
theorem preOrd_reach {st : BState} :
    ∀ (f : Nat) (is : List Nat), (∀ i ∈ is, Reach st i) →
      ∀ j ∈ preOrd st.kids f is, Reach st j
  | 0, is, _, j, hj => absurd hj (by rw [preOrd_zero]; exact List.not_mem_nil j)
  | f + 1, [], _, j, hj => absurd hj (List.not_mem_nil j)
  | f + 1, i :: is, his, j, hj => by
    rw [preOrd_cons] at hj
    rcases List.mem_cons.mp hj with rfl | hj
    · exact his j (List.mem_cons_self j is)
    · rcases List.mem_append.mp hj with hj | hj
      · refine preOrd_reach f (st.kids i) ?_ j hj
        intro q hq
        exact Reach.child (his i (List.mem_cons_self i is)) hq
      · exact preOrd_reach (f + 1) is
          (fun q hq => his q (List.mem_cons_of_mem i hq)) j hj

/-- A strictly increasing list bounded by `n` is the filtration of
`range n` by membership. -/
theorem filter_range_of_sorted {P : List Nat} {n : Nat}
    (hs : P.Chain' (· < ·)) (hb : ∀ x ∈ P, x < n) :
    (List.range n).filter (fun j => j ∈ P) = P := by
  have hPp : P.Pairwise (· < ·) := List.chain'_iff_pairwise.mp hs
  have hPnd : P.Nodup := hPp.nodup
  have hFnd : ((List.range n).filter (fun j => decide (j ∈ P))).Nodup :=
    (List.nodup_range n).filter _
  have hperm : ((List.range n).filter (fun j => decide (j ∈ P))).Perm P := by
    rw [List.perm_ext_iff_of_nodup hFnd hPnd]
    intro a
    rw [List.mem_filter, List.mem_range, decide_eq_true_eq]
    constructor
    · exact fun h => h.2
    · exact fun h => ⟨hb a h, h⟩
  exact List.eq_of_perm_of_sorted hperm
    ((List.sorted_lt_range n).filter _) hPp

/-- C6 (amended): for every record sequence, in the built forest the
sequence of tags along a pre-order, left-to-right traversal starting from
the synthetic root's children equals the sequence of tags of exactly those
input records that are transitively attached to the root (reachable from
it), in document order. -/
theorem preorder_tags_document_order (recs : List Rec) (st : BState)
    (h : build recs = some st) :
    ((preOrd st.kids recs.length st.rootKids).map (tagOf recs)
      = ((List.range recs.length).filter
          (fun j => j ∈ preOrd st.kids recs.length st.rootKids)).map (tagOf recs))
    ∧ ∀ j, j ∈ preOrd st.kids recs.length st.rootKids ↔ Reach st j := by
  have hInv := build_master h
  have hbound : ∀ x ∈ preOrd st.kids recs.length st.rootKids, x < recs.length := by
    apply preOrd_mem_upper
    · intro p q hq
      exact (hInv.kBound p q hq).2
    · exact hInv.rBound
  constructor
  · rw [filter_range_of_sorted hInv.sortedP hbound]
  · intro j
    constructor
    · intro hj
      refine preOrd_reach recs.length st.rootKids ?_ j hj
      intro i hi
      exact Reach.root hi
    · intro hj
      induction hj with
      | root hmem =>
        rename_i j'
        have hj' : j' < recs.length := hInv.rBound j' hmem
        obtain ⟨n', hn'⟩ : ∃ n', recs.length = n' + 1 := ⟨recs.length - 1, by omega⟩
        rw [hn']
        exact preOrd_mem_of_mem hmem
      | child hre hmem ih =>
        have hκ' : ∀ p q, q ∈ st.kids p → p < q ∧ q < recs.length :=
          fun p q hq => hInv.kBound p q hq
        refine preOrd_mem_child hκ' recs.length st.rootKids ?_ _ ih _ hmem
        intro i hi
        exact ⟨hInv.rBound i hi, by omega⟩

/-- C6 counterexample: the claim says the pre-order tag sequence equals
the tags of the records *attached to some parent*, in document order.  On
the input `2 FOO x` / `3 BAR y` the level-2 record is orphaned but still
receives the level-3 record as a child: `BAR` is attached to a parent, yet
the traversal from the root is empty, so the two sequences differ. -/
theorem preorder_vs_attached_cex :
    tokenize "2 FOO x\n3 BAR y"
      = .ok [⟨"x", "FOO", "", 2⟩, ⟨"y", "BAR", "", 3⟩]
    ∧ (build [⟨"x", "FOO", "", 2⟩, ⟨"y", "BAR", "", 3⟩]).map
        (fun st =>
          ((preOrd st.kids 2 st.rootKids).map
              (tagOf [⟨"x", "FOO", "", 2⟩, ⟨"y", "BAR", "", 3⟩]),
            ((List.range 2).filter (fun j => attachedB st 2 j)).map
              (tagOf [⟨"x", "FOO", "", 2⟩, ⟨"y", "BAR", "", 3⟩])))
        = some ([], ["BAR"])
    ∧ ([] : List String) ≠ ["BAR"] :=
  ⟨by rfl, by rfl, by decide⟩

/-- The record sequence of scenario 1's first two lines, used as the
witness input for C6. -/
def sampleRecs : List Rec :=
  [⟨"", "HEAD", "", 0⟩, ⟨"M", "SEX", "", 1⟩]

/-- Witness for the amended C6 on the two-record input `0 HEAD` /
`1 SEX M`. -/
theorem preorder_tags_document_order_witness :
    ∃ st, build sampleRecs = some st ∧
      (((preOrd st.kids sampleRecs.length st.rootKids).map (tagOf sampleRecs)
        = ((List.range sampleRecs.length).filter
            (fun j => j ∈ preOrd st.kids sampleRecs.length st.rootKids)).map
              (tagOf sampleRecs))
      ∧ ∀ j, j ∈ preOrd st.kids sampleRecs.length st.rootKids ↔ Reach st j) :=
  ⟨_, rfl, preorder_tags_document_order sampleRecs _ rfl⟩

end Gedcom
